import Mathlib

/-!
Verification of the core of `moves-viz` (`src/commands/cities.js`):
extraction and deduplication of movement-segment endpoints, density-based
clustering, cluster ranking and filtering, square tile layout, projection
fitting, and reverse-geocoding label lookup.

Numbers: JavaScript numbers are modelled as `ℚ` for coordinate data and as
`ℝ` where the source uses `Math.sqrt` (tile layout).  External collaborators
(the `density-clustering` DBSCAN engine, the `fast-haversine` metric, the
HTTP transport and JSON parser behind the label lookup, and the d3 projection
constructor) are not part of the repository's source; they are modelled from
the specification, as noted on each definition.
-/

namespace MovesViz

/-- A location point reduced to its coordinate pair, as produced by
`_.pick(m, ['lat', 'lon'])` in `clusterLocations`. -/
structure Point where
  lat : ℚ
  lon : ℚ
deriving DecidableEq, Repr

/-- A raw track point as found in the storyline input: a coordinate pair
plus whatever further fields the loader supplies (collapsed into one
`extra` field, which `_.pick` discards). -/
structure RawPoint where
  lat : ℚ
  lon : ℚ
  extra : String
deriving DecidableEq, Repr

/-- A storyline segment: a type tag (clustering keeps only `"move"`) and an
ordered list of track points. -/
structure Segment where
  type : String
  trackPoints : List RawPoint
deriving DecidableEq, Repr

/-- The `_.pick(m, ['lat', 'lon'])` step of `clusterLocations`. -/
def pickLatLon (r : RawPoint) : Point :=
  { lat := r.lat, lon := r.lon }

/-- First and last track point of a segment, as
`[_.first(m.trackPoints), _.last(m.trackPoints)]`: either may be absent
(`undefined` in the source) when the track is empty. -/
def segmentEndpoints (m : Segment) : List (Option RawPoint) :=
  [m.trackPoints.head?, m.trackPoints.getLast?]

/-- The endpoint list of `clusterLocations` before deduplication: first and
last track points of every `"move"` segment, with absent endpoints dropped
by the bare `.filter()` and each survivor reduced to `{lat, lon}`. -/
def endpointPoints (segments : List Segment) : List Point :=
  ((((segments.filter (fun s => s.type == "move")).flatMap
    segmentEndpoints).filterMap id).map pickLatLon)

/-- The `_.uniqBy(m => _.values(m).join(','))` step: keep the first
occurrence of each `(lat, lon)` pair, preserving insertion order.  The
join key of a picked record determines exactly its coordinate pair, so
the key comparison is modelled as equality of `Point`s. -/
def uniqAux (seen : List Point) : List Point → List Point
  | [] => []
  | p :: rest =>
    if p ∈ seen then uniqAux seen rest
    else p :: uniqAux (p :: seen) rest

/-- The deduplicated Dataset of `clusterLocations` (source lines 66–72). -/
def clusterDataset (segments : List Segment) : List Point :=
  uniqAux [] (endpointPoints segments)

theorem uniqAux_sublist (seen : List Point) (l : List Point) :
    (uniqAux seen l).Sublist l := by
  induction l generalizing seen with
  | nil => simp [uniqAux]
  | cons p rest ih =>
    by_cases hp : p ∈ seen
    · simp only [uniqAux, if_pos hp]
      exact (ih seen).trans (List.sublist_cons_self p rest)
    · simp only [uniqAux, if_neg hp]
      exact (ih (p :: seen)).cons₂ p

theorem uniqAux_not_mem_seen (seen : List Point) (l : List Point) :
    ∀ p ∈ uniqAux seen l, p ∉ seen := by
  induction l generalizing seen with
  | nil => simp [uniqAux]
  | cons q rest ih =>
    by_cases hq : q ∈ seen
    · simpa only [uniqAux, if_pos hq] using ih seen
    · simp only [uniqAux, if_neg hq]
      intro p hp
      rcases List.mem_cons.1 hp with h | h
      · exact h ▸ hq
      · have := ih (q :: seen) p h
        exact fun hin => this (List.mem_cons_of_mem q hin)

theorem uniqAux_nodup (seen : List Point) (l : List Point) :
    (uniqAux seen l).Nodup := by
  induction l generalizing seen with
  | nil => simp [uniqAux]
  | cons q rest ih =>
    by_cases hq : q ∈ seen
    · simpa only [uniqAux, if_pos hq] using ih seen
    · simp only [uniqAux, if_neg hq]
      refine List.nodup_cons.2 ⟨?_, ih (q :: seen)⟩
      intro hmem
      exact uniqAux_not_mem_seen (q :: seen) rest q hmem (List.mem_cons_self q seen)

theorem uniqAux_complete (seen : List Point) (l : List Point) :
    ∀ p ∈ l, p ∈ seen ∨ p ∈ uniqAux seen l := by
  induction l generalizing seen with
  | nil => simp
  | cons q rest ih =>
    intro p hp
    by_cases hq : q ∈ seen
    · simp only [uniqAux, if_pos hq]
      rcases List.mem_cons.1 hp with h | h
      · exact Or.inl (h ▸ hq)
      · exact ih seen p h
    · simp only [uniqAux, if_neg hq]
      rcases List.mem_cons.1 hp with h | h
      · exact Or.inr (h ▸ List.mem_cons_self q _)
      · rcases ih (q :: seen) p h with hs | hu
        · rcases List.mem_cons.1 hs with h' | h'
          · exact Or.inr (h' ▸ List.mem_cons_self q _)
          · exact Or.inl h'
        · exact Or.inr (List.mem_cons_of_mem q hu)

/-- C6: the Dataset built for clustering is a duplicate-free selection of
the move-segment endpoints (reduced to `(lat, lon)` pairs): it has no two
entries with equal coordinates, it is a sublist of the endpoint sequence
(so entries are kept in first-occurrence insertion order), and every
endpoint's coordinate pair is represented, so two coincident endpoints
yield exactly one entry. -/
theorem clusterDataset_dedups (segments : List Segment) :
    (clusterDataset segments).Nodup ∧
      (clusterDataset segments).Sublist (endpointPoints segments) ∧
      ∀ p ∈ endpointPoints segments, p ∈ clusterDataset segments := by
  refine ⟨uniqAux_nodup [] _, uniqAux_sublist [] _, ?_⟩
  intro p hp
  rcases uniqAux_complete [] (endpointPoints segments) p hp with h | h
  · exact absurd h (List.not_mem_nil p)
  · exact h

/-- C10: a move segment with an empty track contributes nothing to the
Dataset — its two absent endpoints are dropped by the `.filter()` step —
and Dataset construction is unaffected by its presence. -/
theorem clusterDataset_ignores_empty_segment (l₁ l₂ : List Segment)
    (s : Segment) (hmove : s.type = "move") (hempty : s.trackPoints = []) :
    clusterDataset (l₁ ++ s :: l₂) = clusterDataset (l₁ ++ l₂) := by
  have hends : segmentEndpoints s = [none, none] := by
    simp [segmentEndpoints, hempty]
  unfold clusterDataset endpointPoints
  simp only [List.filter_append, List.filter_cons, List.flatMap_append,
    List.filterMap_append, List.map_append]
  by_cases hkeep : (s.type == "move") = true
  · simp only [if_pos hkeep, List.flatMap_cons, List.filterMap_append, hends,
      List.map_append]
    simp [List.filterMap]
  · exact absurd (by simp [hmove]) hkeep

/-- Concrete instance for `clusterDataset_ignores_empty_segment`: deleting
an empty move segment between two singleton move segments leaves the
Dataset unchanged. -/
theorem clusterDataset_ignores_empty_segment_witness :
    (⟨"move", []⟩ : Segment).type = "move" ∧
      (⟨"move", []⟩ : Segment).trackPoints = [] ∧
      clusterDataset ([⟨"move", [⟨1, 2, "a"⟩]⟩] ++ (⟨"move", []⟩ : Segment) :: [⟨"move", [⟨3, 4, "b"⟩]⟩]) =
        clusterDataset ([⟨"move", [⟨1, 2, "a"⟩]⟩] ++ [⟨"move", [⟨3, 4, "b"⟩]⟩]) :=
  ⟨rfl, rfl,
    clusterDataset_ignores_empty_segment [⟨"move", [⟨1, 2, "a"⟩]⟩]
      [⟨"move", [⟨3, 4, "b"⟩]⟩] ⟨"move", []⟩ rfl rfl⟩

/-- A ranked cluster as built in `exports.handler`: a resolved display
label and the cluster's member points. -/
structure RankedCluster where
  label : String
  controlPoints : List Point
deriving DecidableEq, Repr

/-- JavaScript `String.prototype.toLowerCase`, modelled character-wise. -/
def lowerStr (s : String) : String :=
  ⟨s.data.map Char.toLower⟩

/-- Whether `needle` is an initial run of `hay` (character comparison). -/
def startsWith : List Char → List Char → Bool
  | [], _ => true
  | _ :: _, [] => false
  | a :: as, b :: bs => a == b && startsWith as bs

/-- JavaScript `hay.indexOf(needle) > -1`: `needle` occurs contiguously in
`hay`. -/
def hasSubstr (needle : List Char) : List Char → Bool
  | [] => startsWith needle []
  | c :: rest => startsWith needle (c :: rest) || hasSubstr needle rest

/-- The predicate of the `options.filter` step in `exports.handler`:
`(c.label || '').toLowerCase().indexOf(options.filter.toLowerCase()) > -1`. -/
def keepCluster (fil : String) (c : RankedCluster) : Bool :=
  hasSubstr (lowerStr fil).data (lowerStr c.label).data

/-- The label-filter step of `exports.handler` (source lines 47–50). -/
def filterClusters (fil : String) (cs : List RankedCluster) : List RankedCluster :=
  cs.filter (keepCluster fil)

theorem startsWith_iff (n h : List Char) :
    startsWith n h = true ↔ ∃ t, h = n ++ t := by
  induction n generalizing h with
  | nil => exact iff_of_true rfl ⟨h, rfl⟩
  | cons a as ih =>
    cases h with
    | nil =>
      simp only [startsWith, List.cons_append]
      constructor
      · intro hc; exact absurd hc (by simp)
      · rintro ⟨t, ht⟩; exact absurd ht (by simp)
    | cons b bs =>
      simp only [startsWith, Bool.and_eq_true, beq_iff_eq, ih bs]
      constructor
      · rintro ⟨rfl, t, rfl⟩; exact ⟨t, rfl⟩
      · rintro ⟨t, ht⟩
        rw [List.cons_append] at ht
        obtain ⟨rfl, rfl⟩ := by exact List.cons.injEq .. ▸ ht
        exact ⟨rfl, t, rfl⟩

theorem hasSubstr_iff (n h : List Char) :
    hasSubstr n h = true ↔ ∃ t u, h = t ++ n ++ u := by
  induction h with
  | nil =>
    simp only [hasSubstr, startsWith_iff]
    constructor
    · rintro ⟨t, ht⟩
      exact ⟨[], t, by simpa using ht⟩
    · rintro ⟨t, u, htu⟩
      rcases List.append_eq_nil.1 (List.append_eq_nil.1 htu.symm).1 with ⟨-, hn⟩
      exact ⟨[], by simp [hn]⟩
  | cons c rest ih =>
    simp only [hasSubstr, Bool.or_eq_true, startsWith_iff, ih]
    constructor
    · rintro (⟨t, ht⟩ | ⟨t, u, htu⟩)
      · exact ⟨[], t, by simpa using ht⟩
      · exact ⟨c :: t, u, by simp [htu]⟩
    · rintro ⟨t, u, htu⟩
      cases t with
      | nil => exact Or.inl ⟨u, by simpa using htu⟩
      | cons c' t' =>
        rw [List.cons_append, List.cons_append] at htu
        obtain ⟨-, hrest⟩ := by exact List.cons.injEq .. ▸ htu
        exact Or.inr ⟨t', u, hrest⟩

theorem lowerStr_data_ne_nil (s : String) (hs : s ≠ "") :
    (lowerStr s).data ≠ [] := by
  cases s with
  | mk data =>
    cases data with
    | nil => exact absurd rfl hs
    | cons c cs => simp [lowerStr]

/-- C8: with a non-empty filter string, the retained clusters are exactly
the members whose lowercased label contains the lowercased filter as a
contiguous substring, and a cluster with an empty label is never
retained. -/
theorem filterClusters_spec (fil : String) (cs : List RankedCluster)
    (c : RankedCluster) (hfil : fil ≠ "") :
    (c ∈ filterClusters fil cs ↔
      c ∈ cs ∧ ∃ t u, (lowerStr c.label).data = t ++ (lowerStr fil).data ++ u) ∧
      (c.label = "" → c ∉ filterClusters fil cs) := by
  constructor
  · rw [filterClusters, List.mem_filter, keepCluster, hasSubstr_iff]
  · intro hlabel hmem
    rw [filterClusters, List.mem_filter] at hmem
    have hkeep := hmem.2
    rw [keepCluster, hasSubstr_iff] at hkeep
    obtain ⟨t, u, htu⟩ := hkeep
    have hnil : (lowerStr c.label).data = [] := by rw [hlabel]; rfl
    rw [hnil] at htu
    rcases List.append_eq_nil.1 (List.append_eq_nil.1 htu.symm).1 with ⟨-, hn⟩
    exact lowerStr_data_ne_nil fil hfil hn

/-- Concrete instance for `filterClusters_spec`: filter `"ber"` against a
labelled and an unlabelled cluster. -/
theorem filterClusters_spec_witness :
    ("ber" : String) ≠ "" ∧
      (((⟨"", []⟩ : RankedCluster) ∈
          filterClusters "ber" [⟨"Berlin", []⟩, ⟨"", []⟩] ↔
        (⟨"", []⟩ : RankedCluster) ∈ ([⟨"Berlin", []⟩, ⟨"", []⟩] : List RankedCluster) ∧
          ∃ t u, (lowerStr (RankedCluster.label ⟨"", []⟩)).data =
            t ++ (lowerStr "ber").data ++ u) ∧
        ((RankedCluster.label ⟨"", []⟩) = "" →
          (⟨"", []⟩ : RankedCluster) ∉ filterClusters "ber" [⟨"Berlin", []⟩, ⟨"", []⟩])) :=
  ⟨by decide, filterClusters_spec "ber" [⟨"Berlin", []⟩, ⟨"", []⟩] ⟨"", []⟩ (by decide)⟩

/-- The sort key of the `_.sortBy(points => -points.length)` step. -/
def sortKey (points : List Point) : ℤ :=
  -(points.length : ℤ)

/-- The ranking step of `exports.handler` (source lines 39–45): lodash
`sortBy` is a stable ascending sort by key, modelled as a stable merge
sort. -/
def rankClusters (groups : List (List Point)) : List (List Point) :=
  groups.mergeSort (fun a b => decide (sortKey a ≤ sortKey b))

theorem sortKey_trans (a b c : List Point)
    (hab : decide (sortKey a ≤ sortKey b) = true)
    (hbc : decide (sortKey b ≤ sortKey c) = true) :
    decide (sortKey a ≤ sortKey c) = true := by
  simp only [decide_eq_true_eq] at *
  exact le_trans hab hbc

theorem sortKey_total (a b : List Point) :
    (decide (sortKey a ≤ sortKey b) || decide (sortKey b ≤ sortKey a)) = true := by
  simp only [Bool.or_eq_true, decide_eq_true_eq]
  exact le_total _ _

/-- C4: ranking sorts the discovered clusters by descending size, and is
stable — for every size `n`, the clusters of size `n` appear in the output
in exactly their original discovery order. -/
theorem rankClusters_sorted_stable (groups : List (List Point)) :
    (rankClusters groups).Pairwise (fun a b => b.length ≤ a.length) ∧
      ∀ n : ℕ, (rankClusters groups).filter (fun g => g.length == n) =
        groups.filter (fun g => g.length == n) := by
  constructor
  · have hs := List.sorted_mergeSort sortKey_trans sortKey_total groups
    refine hs.imp ?_
    intro a b hab
    simp only [decide_eq_true_eq, sortKey, neg_le_neg_iff, Nat.cast_le] at hab
    exact hab
  · intro n
    have hpair : (groups.filter (fun g => g.length == n)).Pairwise
        (fun a b => decide (sortKey a ≤ sortKey b) = true) := by
      refine List.pairwise_of_forall_mem_list ?_
      intro a ha b hb
      have ha' := (List.mem_filter.1 ha).2
      have hb' := (List.mem_filter.1 hb).2
      simp only [beq_iff_eq] at ha' hb'
      simp [sortKey, ha', hb']
    have hsub : (groups.filter (fun g => g.length == n)).Sublist
        (rankClusters groups) :=
      List.sublist_mergeSort sortKey_trans sortKey_total hpair
        (List.filter_sublist groups)
    have hsub2 : (groups.filter (fun g => g.length == n)).Sublist
        ((rankClusters groups).filter (fun g => g.length == n)) := by
      have := hsub.filter (fun g => g.length == n)
      simpa [List.filter_filter] using this
    have hperm : ((rankClusters groups).filter (fun g => g.length == n)).Perm
        (groups.filter (fun g => g.length == n)) :=
      (List.mergeSort_perm groups _).filter _
    exact ((hsub2.eq_of_length hperm.length_eq.symm)).symm

/-- One entry of a geocoding result's `address_components`. -/
structure AddressComponent where
  long_name : String
  types : List String
deriving DecidableEq, Repr

/-- One entry of a geocoding response's `results`. -/
structure GeoResult where
  address_components : List AddressComponent
deriving DecidableEq, Repr

/-- The parsed body of a geocoding response. -/
structure GeoResponse where
  status : String
  results : List GeoResult
deriving DecidableEq, Repr

/-- The `avg` helper of `lookupLabel`:
`_.reduce(points, (sum, l) => sum + l, 0) / points.length`. -/
def avgRat (xs : List ℚ) : ℚ :=
  xs.foldl (fun sum l => sum + l) 0 / xs.length

/-- The request URL of `lookupLabel`, keyed by the centroid pair. -/
def geocodeUrl (centroid : ℚ × ℚ) : String :=
  "http://maps.googleapis.com/maps/api/geocode/json?latlng=" ++
    toString centroid.1 ++ "," ++ toString centroid.2

/-- The `firstByType` helper of `lookupLabel`: first component whose
`types` contains the given type tag. -/
def firstByType (components : List AddressComponent) (t : String) :
    Option AddressComponent :=
  (components.filter (fun comp => comp.types.contains t)).head?

/-- The flattened `address_components` of all results, as
`_.flatMap(responseJson.results, 'address_components')`. -/
def labelComponents (responseJson : GeoResponse) : List AddressComponent :=
  responseJson.results.flatMap GeoResult.address_components

/-- The `OK` branch of `lookupLabel`: city and region long names joined by
`', '`, with absent and empty parts dropped (lodash `_.filter` removes
both `undefined` and `''`). -/
def formatLabel (responseJson : GeoResponse) : String :=
  String.intercalate ", "
    (([(firstByType (labelComponents responseJson) "locality").map
          AddressComponent.long_name,
        (firstByType (labelComponents responseJson)
            "administrative_area_level_1").map
          AddressComponent.long_name].filterMap id).filter
      (fun s => !s.isEmpty))

/-- The source's `lookupLabel` (lines 172–196), with the two external
effects injected: `httpGet` models the `sync-request` call (which throws
on a failed lookup, modelled as `Except.error`) and `parseJson` models
`JSON.parse` (which throws on an unparseable body).  The centroid is the
`avg` of the latitudes paired with the `avg` of the longitudes. -/
def lookupLabel (httpGet : String → Except String String)
    (parseJson : String → Except String GeoResponse)
    (controlPoints : List Point) : Except String String :=
  match httpGet (geocodeUrl
      (avgRat (controlPoints.map Point.lat), avgRat (controlPoints.map Point.lon))) with
  | .error e => .error e
  | .ok body =>
    match parseJson body with
    | .error e => .error e
    | .ok responseJson =>
      if responseJson.status = "OK" then .ok (formatLabel responseJson)
      else .ok ""

/-- The LabelResolver of the spec, as a function of the centroid alone:
request the geocode of the given coordinate pair and format the result. -/
def resolveAt (httpGet : String → Except String String)
    (parseJson : String → Except String GeoResponse)
    (centroid : ℚ × ℚ) : Except String String :=
  match httpGet (geocodeUrl centroid) with
  | .error e => .error e
  | .ok body =>
    match parseJson body with
    | .error e => .error e
    | .ok responseJson =>
      if responseJson.status = "OK" then .ok (formatLabel responseJson)
      else .ok ""

theorem foldl_add_from (a : ℚ) (xs : List ℚ) :
    xs.foldl (fun sum l => sum + l) a = a + xs.sum := by
  induction xs generalizing a with
  | nil => simp
  | cons x xs ih => simp [ih, add_assoc]

theorem foldl_add_eq_sum (xs : List ℚ) :
    xs.foldl (fun sum l => sum + l) 0 = xs.sum := by
  rw [foldl_add_from, zero_add]

/-- C9: the display label is the resolver applied to the cluster's
centroid, the pair of the arithmetic mean of the member latitudes and the
arithmetic mean of the member longitudes. -/
theorem lookupLabel_eq_resolve_centroid (httpGet : String → Except String String)
    (parseJson : String → Except String GeoResponse)
    (controlPoints : List Point) (_hne : controlPoints ≠ []) :
    lookupLabel httpGet parseJson controlPoints =
      resolveAt httpGet parseJson
        ((controlPoints.map Point.lat).sum / controlPoints.length,
          (controlPoints.map Point.lon).sum / controlPoints.length) := by
  unfold lookupLabel resolveAt avgRat
  rw [foldl_add_eq_sum, foldl_add_eq_sum, List.length_map, List.length_map]

/-- Concrete instance for `lookupLabel_eq_resolve_centroid`, with a stub
transport and parser. -/
theorem lookupLabel_eq_resolve_centroid_witness :
    ([(⟨1, 2⟩ : Point), ⟨3, 4⟩] ≠ ([] : List Point)) ∧
      lookupLabel (fun _ => .ok "{}") (fun _ => .error "bad json")
          [(⟨1, 2⟩ : Point), ⟨3, 4⟩] =
        resolveAt (fun _ => .ok "{}") (fun _ => .error "bad json")
          ((([(⟨1, 2⟩ : Point), ⟨3, 4⟩].map Point.lat).sum /
              (List.length [(⟨1, 2⟩ : Point), ⟨3, 4⟩])),
            (([(⟨1, 2⟩ : Point), ⟨3, 4⟩].map Point.lon).sum /
              (List.length [(⟨1, 2⟩ : Point), ⟨3, 4⟩]))) :=
  ⟨by simp, lookupLabel_eq_resolve_centroid (fun _ => .ok "{}")
    (fun _ => .error "bad json") [⟨1, 2⟩, ⟨3, 4⟩] (by simp)⟩

/-- A transport whose lookup fails, as when the geocoding host is
unreachable: `sync-request` then throws. -/
def failingHttpGet : String → Except String String :=
  fun _ => .error "connection failed"

/-- A parser that rejects every body, as `JSON.parse` does on a
non-JSON response. -/
def failingParse : String → Except String GeoResponse :=
  fun _ => .error "unexpected token"

/-- C1 counterexample: on a failed lookup the source's `lookupLabel` does
not return the empty string — the exception from the transport
propagates. -/
theorem lookupLabel_raises_on_failure :
    lookupLabel failingHttpGet failingParse [⟨0, 0⟩] ≠ Except.ok "" ∧
      lookupLabel failingHttpGet failingParse [⟨0, 0⟩] =
        Except.error "connection failed" := by
  constructor
  · intro h
    exact Except.noConfusion h
  · rfl

/-- C1 amended: `lookupLabel` returns the empty string exactly on a
response that parses with a non-`OK` status; a failed lookup or an
unparseable body instead propagates the underlying exception. -/
theorem lookupLabel_error_paths (httpGet : String → Except String String)
    (parseJson : String → Except String GeoResponse)
    (controlPoints : List Point) :
    (∀ e, httpGet (geocodeUrl (avgRat (controlPoints.map Point.lat),
        avgRat (controlPoints.map Point.lon))) = .error e →
      lookupLabel httpGet parseJson controlPoints = .error e) ∧
      (∀ body e, httpGet (geocodeUrl (avgRat (controlPoints.map Point.lat),
          avgRat (controlPoints.map Point.lon))) = .ok body →
        parseJson body = .error e →
        lookupLabel httpGet parseJson controlPoints = .error e) ∧
      (∀ body responseJson,
        httpGet (geocodeUrl (avgRat (controlPoints.map Point.lat),
          avgRat (controlPoints.map Point.lon))) = .ok body →
        parseJson body = .ok responseJson → responseJson.status ≠ "OK" →
        lookupLabel httpGet parseJson controlPoints = .ok "") := by
  refine ⟨?_, ?_, ?_⟩
  · intro e he
    unfold lookupLabel
    rw [he]
  · intro body e hb he
    unfold lookupLabel
    rw [hb]
    dsimp only
    rw [he]
  · intro body responseJson hb hr hs
    unfold lookupLabel
    rw [hb]
    dsimp only
    rw [hr]
    simp [hs]

/-- Concrete instance for `lookupLabel_error_paths`: a stub transport and
parser returning a `ZERO_RESULTS` status yield the empty label. -/
theorem lookupLabel_error_paths_witness :
    (fun _ => (.ok "body" : Except String String)) (geocodeUrl
        (avgRat ([(⟨0, 0⟩ : Point)].map Point.lat),
          avgRat ([(⟨0, 0⟩ : Point)].map Point.lon))) = .ok "body" ∧
      (fun _ => (.ok (⟨"ZERO_RESULTS", []⟩ : GeoResponse) :
        Except String GeoResponse)) "body" = .ok ⟨"ZERO_RESULTS", []⟩ ∧
      (⟨"ZERO_RESULTS", []⟩ : GeoResponse).status ≠ "OK" ∧
      lookupLabel (fun _ => .ok "body")
        (fun _ => .ok ⟨"ZERO_RESULTS", []⟩) [⟨0, 0⟩] = .ok "" :=
  ⟨rfl, rfl, by decide,
    (lookupLabel_error_paths (fun _ => .ok "body")
      (fun _ => .ok ⟨"ZERO_RESULTS", []⟩) [⟨0, 0⟩]).2.2 "body"
      ⟨"ZERO_RESULTS", []⟩ rfl rfl (by decide)⟩

/-- State threaded through the clustering run: indices already visited,
indices already assigned to some cluster, and the members (in insertion
order) of the cluster currently being grown. -/
structure DBState where
  visited : List ℕ
  assigned : List ℕ
  cluster : List ℕ
deriving DecidableEq, Repr

/-- Modelled from the spec: the ClusterEngine's neighborhood query (the
`density-clustering` DBSCAN engine is an external library, consumed as
`dbscan.run(dataset, epsilon, minPts, distance)`) — all dataset indices
whose distance from the query point is at most `epsilon`, the query point
included. -/
def regionQuery {α β : Type} [LinearOrder β] (dataset : List α) (epsilon : β)
    (dist : α → α → β) (x : α) : List ℕ :=
  ((List.finRange dataset.length).filter
    (fun q => decide (dist x (dataset.get q) ≤ epsilon))).map Fin.val

/-- Claim index `q` for the cluster being grown, unless an earlier cluster
already claimed it: the first cluster that claims a point wins. -/
def assignPoint (q : ℕ) (st : DBState) : DBState :=
  if q ∈ st.assigned then st
  else ⟨st.visited, q :: st.assigned, st.cluster ++ [q]⟩

/-- Modelled from the spec: breadth-first growth of one cluster.  Every
frontier point is claimed for the cluster (unless an earlier cluster owns
it); a frontier point visited for the first time has its neighborhood
computed, and if it is a core point its neighborhood joins the frontier.
The fuel argument bounds the work; the caller supplies more than the
frontier can ever consume. -/
def expandCluster {α β : Type} [LinearOrder β] (dataset : List α) (epsilon : β)
    (minPts : ℕ) (dist : α → α → β) : ℕ → List ℕ → DBState → DBState
  | 0, _, st => st
  | _ + 1, [], st => st
  | fuel + 1, q :: queue, st =>
    match dataset[q]? with
    | none => expandCluster dataset epsilon minPts dist fuel queue st
    | some xq =>
      if q ∈ st.visited then
        expandCluster dataset epsilon minPts dist fuel queue (assignPoint q st)
      else
        if minPts ≤ (regionQuery dataset epsilon dist xq).length then
          expandCluster dataset epsilon minPts dist fuel
            (queue ++ regionQuery dataset epsilon dist xq)
            (assignPoint q ⟨q :: st.visited, st.assigned, st.cluster⟩)
        else
          expandCluster dataset epsilon minPts dist fuel queue
            (assignPoint q ⟨q :: st.visited, st.assigned, st.cluster⟩)

/-- Modelled from the spec: the ClusterEngine's main pass, in stable
dataset order.  An unvisited point with fewer than `minPts` neighbors is
provisional noise; otherwise it seeds a new cluster, grown by
`expandCluster` over its neighborhood. -/
def dbscanLoop {α β : Type} [LinearOrder β] (dataset : List α) (epsilon : β)
    (minPts : ℕ) (dist : α → α → β) :
    List ℕ → List ℕ → List ℕ → List (List ℕ) → List (List ℕ)
  | [], _, _, acc => acc
  | p :: rest, visited, assigned, acc =>
    if p ∈ visited then
      dbscanLoop dataset epsilon minPts dist rest visited assigned acc
    else
      match dataset[p]? with
      | none => dbscanLoop dataset epsilon minPts dist rest (p :: visited) assigned acc
      | some xp =>
        if (regionQuery dataset epsilon dist xp).length < minPts then
          dbscanLoop dataset epsilon minPts dist rest (p :: visited) assigned acc
        else
          dbscanLoop dataset epsilon minPts dist rest
            (expandCluster dataset epsilon minPts dist
              ((dataset.length + 1) * (dataset.length + 1))
              (regionQuery dataset epsilon dist xp)
              ⟨p :: visited, p :: assigned, [p]⟩).visited
            (expandCluster dataset epsilon minPts dist
              ((dataset.length + 1) * (dataset.length + 1))
              (regionQuery dataset epsilon dist xp)
              ⟨p :: visited, p :: assigned, [p]⟩).assigned
            (acc ++ [(expandCluster dataset epsilon minPts dist
              ((dataset.length + 1) * (dataset.length + 1))
              (regionQuery dataset epsilon dist xp)
              ⟨p :: visited, p :: assigned, [p]⟩).cluster])

/-- Modelled from the spec: the ClusterEngine — density-based clustering
of `dataset` returning the discovered clusters as lists of dataset
indices, in discovery order. -/
def dbscan {α β : Type} [LinearOrder β] (dataset : List α) (epsilon : β)
    (minPts : ℕ) (dist : α → α → β) : List (List ℕ) :=
  dbscanLoop dataset epsilon minPts dist (List.range dataset.length) [] [] []

/-- The point groups of `clusterLocations` (source line 77): each index
cluster mapped back to its dataset points. -/
def clusterGroups {β : Type} [LinearOrder β] (dataset : List Point) (epsilon : β)
    (minPts : ℕ) (dist : Point → Point → β) : List (List Point) :=
  (dbscan dataset epsilon minPts dist).map
    (fun cluster => cluster.filterMap (fun index => dataset[index]?))

theorem assignPoint_visited (q : ℕ) (st : DBState) :
    (assignPoint q st).visited = st.visited := by
  unfold assignPoint
  split <;> rfl

theorem assignPoint_assigned_mono (q : ℕ) (st : DBState) :
    ∀ i ∈ st.assigned, i ∈ (assignPoint q st).assigned := by
  intro i hi
  unfold assignPoint
  split
  · exact hi
  · exact List.mem_cons_of_mem q hi

theorem expandCluster_assigned_mono {α β : Type} [LinearOrder β]
    (dataset : List α) (epsilon : β) (minPts : ℕ) (dist : α → α → β)
    (fuel : ℕ) (queue : List ℕ) (st : DBState) :
    ∀ i ∈ st.assigned,
      i ∈ (expandCluster dataset epsilon minPts dist fuel queue st).assigned := by
  induction fuel generalizing queue st with
  | zero => intro i hi; exact hi
  | succ fuel ih =>
    intro i hi
    cases queue with
    | nil => exact hi
    | cons q rest =>
      unfold expandCluster
      cases hq : dataset[q]? with
      | none => exact ih rest st i hi
      | some xq =>
        dsimp only
        split
        · exact ih rest _ i (assignPoint_assigned_mono q st i hi)
        · split
          · exact ih _ _ i (assignPoint_assigned_mono q _ i hi)
          · exact ih _ _ i (assignPoint_assigned_mono q _ i hi)

/-- The cluster list only ever grows during expansion. -/
theorem expandCluster_cluster_extend {α β : Type} [LinearOrder β]
    (dataset : List α) (epsilon : β) (minPts : ℕ) (dist : α → α → β)
    (fuel : ℕ) (queue : List ℕ) (st : DBState) :
    ∃ t, (expandCluster dataset epsilon minPts dist fuel queue st).cluster =
      st.cluster ++ t := by
  induction fuel generalizing queue st with
  | zero => exact ⟨[], by simp [expandCluster]⟩
  | succ fuel ih =>
    cases queue with
    | nil => exact ⟨[], by simp [expandCluster]⟩
    | cons q rest =>
      unfold expandCluster
      cases hq : dataset[q]? with
      | none => exact ih rest st
      | some xq =>
        dsimp only
        have hassign : ∀ st' : DBState, ∃ u, (assignPoint q st').cluster =
            st'.cluster ++ u := by
          intro st'
          unfold assignPoint
          split
          · exact ⟨[], by simp⟩
          · exact ⟨[q], rfl⟩
        split
        · obtain ⟨u, hu⟩ := hassign st
          obtain ⟨t, ht⟩ := ih rest (assignPoint q st)
          exact ⟨u ++ t, by rw [ht, hu, List.append_assoc]⟩
        · split
          · obtain ⟨u, hu⟩ := hassign ⟨q :: st.visited, st.assigned, st.cluster⟩
            obtain ⟨t, ht⟩ := ih _ (assignPoint q ⟨q :: st.visited, st.assigned, st.cluster⟩)
            exact ⟨u ++ t, by rw [ht, hu]; simp [List.append_assoc]⟩
          · obtain ⟨u, hu⟩ := hassign ⟨q :: st.visited, st.assigned, st.cluster⟩
            obtain ⟨t, ht⟩ := ih _ (assignPoint q ⟨q :: st.visited, st.assigned, st.cluster⟩)
            exact ⟨u ++ t, by rw [ht, hu]; simp [List.append_assoc]⟩

/-- Invariant preserved by expansion: the growing cluster has no
duplicates, all its members are claimed, and every claimed index has been
visited. -/
def ExpInv (st : DBState) : Prop :=
  st.cluster.Nodup ∧ (∀ i ∈ st.cluster, i ∈ st.assigned) ∧
    ∀ i ∈ st.assigned, i ∈ st.visited

theorem assignPoint_expInv (q : ℕ) (st : DBState) (hq : q ∈ st.visited)
    (h : ExpInv st) : ExpInv (assignPoint q st) := by
  obtain ⟨hnd, hca, hav⟩ := h
  unfold assignPoint
  split
  · exact ⟨hnd, hca, hav⟩
  · rename_i hqa
    refine ⟨?_, ?_, ?_⟩
    · rw [List.nodup_append]
      exact ⟨hnd, List.nodup_singleton q, by
        intro i hi hiq
        rw [List.mem_singleton] at hiq
        exact hqa (hiq ▸ hca i hi)⟩
    · intro i hi
      rcases List.mem_append.1 hi with h' | h'
      · exact List.mem_cons_of_mem q (hca i h')
      · rw [List.mem_singleton] at h'
        exact h' ▸ List.mem_cons_self q _
    · intro i hi
      rcases List.mem_cons.1 hi with h' | h'
      · exact h' ▸ hq
      · exact hav i h'

theorem expandCluster_expInv {α β : Type} [LinearOrder β]
    (dataset : List α) (epsilon : β) (minPts : ℕ) (dist : α → α → β)
    (fuel : ℕ) (queue : List ℕ) (st : DBState) (h : ExpInv st) :
    ExpInv (expandCluster dataset epsilon minPts dist fuel queue st) := by
  induction fuel generalizing queue st with
  | zero => exact h
  | succ fuel ih =>
    cases queue with
    | nil => exact h
    | cons q rest =>
      unfold expandCluster
      cases hq : dataset[q]? with
      | none => exact ih rest st h
      | some xq =>
        dsimp only
        split
        · rename_i hqv
          exact ih rest _ (assignPoint_expInv q st hqv h)
        · rename_i hqv
          have h' : ExpInv ⟨q :: st.visited, st.assigned, st.cluster⟩ :=
            ⟨h.1, h.2.1, fun i hi => List.mem_cons_of_mem q (h.2.2 i hi)⟩
          have hass := assignPoint_expInv q ⟨q :: st.visited, st.assigned, st.cluster⟩
            (List.mem_cons_self q _) h'
          split
          · exact ih _ _ hass
          · exact ih _ _ hass

/-- A point newly claimed during expansion was not claimed at entry. -/
theorem expandCluster_new_members {α β : Type} [LinearOrder β]
    (dataset : List α) (epsilon : β) (minPts : ℕ) (dist : α → α → β)
    (fuel : ℕ) (queue : List ℕ) (st : DBState) :
    ∀ i ∈ (expandCluster dataset epsilon minPts dist fuel queue st).cluster,
      i ∈ st.cluster ∨ i ∉ st.assigned := by
  induction fuel generalizing queue st with
  | zero => intro i hi; exact Or.inl hi
  | succ fuel ih =>
    cases queue with
    | nil => intro i hi; exact Or.inl hi
    | cons q rest =>
      unfold expandCluster
      cases hq : dataset[q]? with
      | none => exact ih rest st
      | some xq =>
        dsimp only
        have hstep : ∀ st' : DBState, st'.cluster = st.cluster →
            st'.assigned = st.assigned →
            ∀ i ∈ (assignPoint q st').cluster, i ∈ st.cluster ∨ i ∉ st.assigned := by
          intro st' hc ha i hi
          unfold assignPoint at hi
          split at hi
          · exact Or.inl (hc ▸ hi)
          · rename_i hqa
            rw [hc] at hi
            rcases List.mem_append.1 hi with h' | h'
            · exact Or.inl h'
            · rw [List.mem_singleton] at h'
              exact Or.inr (h' ▸ (ha ▸ hqa))
        have hstepA : ∀ st' : DBState, st'.cluster = st.cluster →
            st'.assigned = st.assigned →
            ∀ i, i ∉ (assignPoint q st').assigned → i ∉ st.assigned := by
          intro st' _ ha i hi hin
          exact hi (assignPoint_assigned_mono q st' i (ha ▸ hin))
        split
        · intro i hi
          rcases ih rest (assignPoint q st) i hi with h' | h'
          · exact hstep st rfl rfl i (by
              unfold assignPoint at h' ⊢
              exact h')
          · exact Or.inr (hstepA st rfl rfl i h')
        · split
          · intro i hi
            rcases ih _ (assignPoint q ⟨q :: st.visited, st.assigned, st.cluster⟩) i hi
              with h' | h'
            · exact hstep ⟨q :: st.visited, st.assigned, st.cluster⟩ rfl rfl i h'
            · exact Or.inr (hstepA ⟨q :: st.visited, st.assigned, st.cluster⟩ rfl rfl i h')
          · intro i hi
            rcases ih _ (assignPoint q ⟨q :: st.visited, st.assigned, st.cluster⟩) i hi
              with h' | h'
            · exact hstep ⟨q :: st.visited, st.assigned, st.cluster⟩ rfl rfl i h'
            · exact Or.inr (hstepA ⟨q :: st.visited, st.assigned, st.cluster⟩ rfl rfl i h')

/-- Invariant of the main clustering pass. -/
def LoopInv (visited assigned : List ℕ) (acc : List (List ℕ)) : Prop :=
  (∀ i ∈ assigned, i ∈ visited) ∧ (∀ i ∈ acc.flatten, i ∈ assigned) ∧
    acc.flatten.Nodup ∧ ∀ c ∈ acc, c ≠ []

theorem dbscanLoop_invariant {α β : Type} [LinearOrder β]
    (dataset : List α) (epsilon : β) (minPts : ℕ) (dist : α → α → β)
    (order : List ℕ) (visited assigned : List ℕ) (acc : List (List ℕ))
    (h : LoopInv visited assigned acc) :
    (dbscanLoop dataset epsilon minPts dist order visited assigned acc).flatten.Nodup ∧
      ∀ c ∈ dbscanLoop dataset epsilon minPts dist order visited assigned acc,
        c ≠ [] := by
  induction order generalizing visited assigned acc with
  | nil => exact ⟨h.2.2.1, h.2.2.2⟩
  | cons p rest ih =>
    unfold dbscanLoop
    split
    · exact ih visited assigned acc h
    · rename_i hpv
      cases hp : dataset[p]? with
      | none =>
        exact ih (p :: visited) assigned acc
          ⟨fun i hi => List.mem_cons_of_mem p (h.1 i hi), h.2.1, h.2.2.1, h.2.2.2⟩
      | some xp =>
        dsimp only
        split
        · exact ih (p :: visited) assigned acc
            ⟨fun i hi => List.mem_cons_of_mem p (h.1 i hi), h.2.1, h.2.2.1, h.2.2.2⟩
        · have hentry : ExpInv ⟨p :: visited, p :: assigned, [p]⟩ := by
            refine ⟨List.nodup_singleton p, ?_, ?_⟩
            · intro i hi
              rw [List.mem_singleton] at hi
              exact hi ▸ List.mem_cons_self p _
            · intro i hi
              rcases List.mem_cons.1 hi with h' | h'
              · exact h' ▸ List.mem_cons_self p _
              · exact List.mem_cons_of_mem p (h.1 i h')
          have hfinal := expandCluster_expInv dataset epsilon minPts dist
            ((dataset.length + 1) * (dataset.length + 1))
            (regionQuery dataset epsilon dist xp)
            ⟨p :: visited, p :: assigned, [p]⟩ hentry
          have hnew := expandCluster_new_members dataset epsilon minPts dist
            ((dataset.length + 1) * (dataset.length + 1))
            (regionQuery dataset epsilon dist xp)
            ⟨p :: visited, p :: assigned, [p]⟩
          have hmono := expandCluster_assigned_mono dataset epsilon minPts dist
            ((dataset.length + 1) * (dataset.length + 1))
            (regionQuery dataset epsilon dist xp)
            ⟨p :: visited, p :: assigned, [p]⟩
          obtain ⟨t, ht⟩ := expandCluster_cluster_extend dataset epsilon minPts dist
            ((dataset.length + 1) * (dataset.length + 1))
            (regionQuery dataset epsilon dist xp)
            ⟨p :: visited, p :: assigned, [p]⟩
          refine ih _ _ _ ⟨hfinal.2.2, ?_, ?_, ?_⟩
          · intro i hi
            rw [List.flatten_append, List.flatten_cons, List.flatten_nil,
              List.append_nil] at hi
            rcases List.mem_append.1 hi with h' | h'
            · exact hmono i (List.mem_cons_of_mem p (h.2.1 i h'))
            · exact hfinal.2.1 i h'
          · rw [List.flatten_append, List.flatten_cons, List.flatten_nil,
              List.append_nil, List.nodup_append]
            refine ⟨h.2.2.1, hfinal.1, ?_⟩
            intro i hiacc hicl
            have hia : i ∈ assigned := h.2.1 i hiacc
            rcases hnew i hicl with h' | h'
            · rw [List.mem_singleton] at h'
              exact hpv (h' ▸ h.1 i hia)
            · exact h' (List.mem_cons_of_mem p hia)
          · intro c hc
            rcases List.mem_append.1 hc with h' | h'
            · exact h.2.2.2 c h'
            · rw [List.mem_singleton] at h'
              rw [h', ht]
              simp

/-- C5 amended: the clustering output groups are pairwise disjoint — no
point index appears in two groups — and every group is non-empty; a group
may however end up smaller than `minPts` when an earlier cluster already
claimed part of its seed's neighborhood. -/
theorem dbscan_disjoint_nonempty {α β : Type} [LinearOrder β]
    (dataset : List α) (epsilon : β) (minPts : ℕ) (dist : α → α → β) :
    (dbscan dataset epsilon minPts dist).Pairwise List.Disjoint ∧
      ∀ c ∈ dbscan dataset epsilon minPts dist, c ≠ [] := by
  have h := dbscanLoop_invariant dataset epsilon minPts dist
    (List.range dataset.length) [] [] []
    ⟨by simp, by simp, by simp, by simp⟩
  exact ⟨(List.nodup_flatten.1 h.1).2, h.2⟩

/-- Eight points on the equator in dataset order: a first dense run of
four, a lone bridge point, then a second run of four whose seed
neighborhood includes the bridge. -/
def stolenPoints : List Point :=
  [⟨0, 0⟩, ⟨0, 3⟩, ⟨0, 6⟩, ⟨0, 9⟩, ⟨0, 19⟩, ⟨0, 29⟩, ⟨0, 33⟩, ⟨0, 37⟩]

/-- Modelled from the spec: GeoDistance restricted to points on the
equator, where great-circle distance is proportional to the longitude
difference; the model scale is 100 meters per unit of longitude, and the
value is integer so the example evaluates. -/
def equatorDist (p q : Point) : ℤ :=
  100 * ((p.lon.num - q.lon.num).natAbs : ℤ)

/-- C5 counterexample: with `epsilon = 1000` and `minPts = 4`, the first
cluster absorbs the bridge point (index 4) as a border point, so the
second seed's neighborhood loses it and the second cluster has only 3
members — fewer than `minPts`. -/
theorem dbscan_group_below_minPts :
    ¬ ∀ c ∈ dbscan stolenPoints (1000 : ℤ) 4 equatorDist, 4 ≤ c.length := by
  decide

/-- A tile placement directive, as returned by `computeSquareDimensions`. -/
structure Square where
  row : ℤ
  column : ℤ
  x : ℤ
  y : ℤ
  size : ℤ
deriving DecidableEq, Repr

/-- `Math.sqrt(perSquareArea)` of `computeSquareDimensions` (source lines
82–84): the side of an ideal square using an equal share of the canvas
area. -/
noncomputable def maxSquare (hgt wid count : ℕ) : ℝ :=
  Real.sqrt ((hgt : ℝ) * wid / count)

/-- `Math.floor(len / Math.ceil(len / s))`: the tile side along one axis,
shrunk so an integral number of tiles fits the axis. -/
noncomputable def axisTile (len : ℕ) (s : ℝ) : ℤ :=
  ⌊(len : ℝ) / ((⌈(len : ℝ) / s⌉ : ℤ) : ℝ)⌋

/-- The `height` local of `computeSquareDimensions` (source line 86). -/
noncomputable def tileHeight (hgt wid count : ℕ) : ℤ :=
  axisTile hgt (maxSquare hgt wid count)

/-- The `width` local of `computeSquareDimensions` (source line 87). -/
noncomputable def tileWidth (hgt wid count : ℕ) : ℤ :=
  axisTile wid (maxSquare hgt wid count)

/-- `size = Math.min(height, width)` (source line 89). -/
noncomputable def squareSize (hgt wid count : ℕ) : ℤ :=
  min (tileHeight hgt wid count) (tileWidth hgt wid count)

/-- `across = Math.floor(options.width / size)` (source line 90). -/
noncomputable def squareAcross (hgt wid count : ℕ) : ℤ :=
  ⌊(wid : ℝ) / ((squareSize hgt wid count : ℤ) : ℝ)⌋

/-- The source's `computeSquareDimensions(index, count, options)` (lines
80–102): row-major placement of square tile `index` out of `count` on an
`options.height × options.width` canvas. -/
noncomputable def computeSquareDimensions (index count hgt wid : ℕ) : Square :=
  { row := ⌊(index : ℝ) / ((squareAcross hgt wid count : ℤ) : ℝ)⌋
    column := (index : ℤ) % squareAcross hgt wid count
    x := ((index : ℤ) % squareAcross hgt wid count) * squareSize hgt wid count
    y := ⌊(index : ℝ) / ((squareAcross hgt wid count : ℤ) : ℝ)⌋ *
      squareSize hgt wid count
    size := squareSize hgt wid count }

theorem maxSquare_hundred : maxSquare 100 100 4 = 50 := by
  unfold maxSquare
  rw [show ((100 : ℕ) : ℝ) * ((100 : ℕ) : ℝ) / ((4 : ℕ) : ℝ) = 50 ^ 2 by norm_num]
  exact Real.sqrt_sq (by norm_num)

theorem squareSize_hundred : squareSize 100 100 4 = 50 := by
  unfold squareSize tileHeight tileWidth axisTile
  rw [maxSquare_hundred]
  rw [show ⌈((100 : ℕ) : ℝ) / (50 : ℝ)⌉ = (2 : ℤ) by norm_num]
  rw [show ⌊((100 : ℕ) : ℝ) / (((2 : ℤ) : ℤ) : ℝ)⌋ = (50 : ℤ) by norm_num]
  simp

theorem squareAcross_hundred : squareAcross 100 100 4 = 2 := by
  unfold squareAcross
  rw [squareSize_hundred]
  norm_num

/-- C3: four tiles on a 100 × 100 canvas form a 2 × 2 grid of
50-pixel squares, row-major: tile 0 at (0,0), tile 1 at (50,0), tile 2 at
(0,50), tile 3 at (50,50). -/
theorem computeSquareDimensions_four_tiles :
    computeSquareDimensions 0 4 100 100 = ⟨0, 0, 0, 0, 50⟩ ∧
      computeSquareDimensions 1 4 100 100 = ⟨0, 1, 50, 0, 50⟩ ∧
      computeSquareDimensions 2 4 100 100 = ⟨1, 0, 0, 50, 50⟩ ∧
      computeSquareDimensions 3 4 100 100 = ⟨1, 1, 50, 50, 50⟩ := by
  unfold computeSquareDimensions
  rw [squareSize_hundred, squareAcross_hundred]
  refine ⟨?_, ?_, ?_, ?_⟩ <;>
    · congr 1 <;> norm_num

theorem maxSquare_pos (hgt wid count : ℕ) (hh : 0 < hgt) (hw : 0 < wid)
    (hc : 0 < count) : 0 < maxSquare hgt wid count := by
  unfold maxSquare
  apply Real.sqrt_pos.2
  have h1 : (0 : ℝ) < hgt := by exact_mod_cast hh
  have h2 : (0 : ℝ) < wid := by exact_mod_cast hw
  have h3 : (0 : ℝ) < count := by exact_mod_cast hc
  exact div_pos (mul_pos h1 h2) h3

theorem axisTiles_pos (len : ℕ) (s : ℝ) (hlen : 0 < len) (hs : 0 < s) :
    0 < ⌈(len : ℝ) / s⌉ :=
  Int.ceil_pos.2 (div_pos (by exact_mod_cast hlen) hs)

theorem axisTile_nonneg (len : ℕ) (s : ℝ) (hlen : 0 < len) (hs : 0 < s) :
    0 ≤ axisTile len s := by
  unfold axisTile
  apply Int.floor_nonneg.2
  apply div_nonneg (by positivity)
  exact_mod_cast (axisTiles_pos len s hlen hs).le

theorem axisTile_mul_le (len : ℕ) (s : ℝ) (hlen : 0 < len) (hs : 0 < s) :
    ((axisTile len s : ℤ) : ℝ) * ((⌈(len : ℝ) / s⌉ : ℤ) : ℝ) ≤ len := by
  have hn : (0 : ℝ) < ((⌈(len : ℝ) / s⌉ : ℤ) : ℝ) := by
    exact_mod_cast axisTiles_pos len s hlen hs
  have hfl : ((axisTile len s : ℤ) : ℝ) ≤ (len : ℝ) / ((⌈(len : ℝ) / s⌉ : ℤ) : ℝ) :=
    Int.floor_le _
  calc ((axisTile len s : ℤ) : ℝ) * ((⌈(len : ℝ) / s⌉ : ℤ) : ℝ)
      ≤ (len : ℝ) / ((⌈(len : ℝ) / s⌉ : ℤ) : ℝ) * ((⌈(len : ℝ) / s⌉ : ℤ) : ℝ) :=
        mul_le_mul_of_nonneg_right hfl hn.le
    _ = len := div_mul_cancel₀ _ hn.ne'

/-- The number of per-axis shrink steps on each axis together provide at
least `count` grid cells. -/
theorem capacity_ge_count (hgt wid count : ℕ) (hh : 0 < hgt) (hw : 0 < wid)
    (hc : 0 < count) :
    (count : ℤ) ≤ ⌈(hgt : ℝ) / maxSquare hgt wid count⌉ *
      ⌈(wid : ℝ) / maxSquare hgt wid count⌉ := by
  have hs := maxSquare_pos hgt wid count hh hw hc
  have hsq : maxSquare hgt wid count ^ 2 = (hgt : ℝ) * wid / count := by
    unfold maxSquare
    exact Real.sq_sqrt (by positivity)
  have h1 : (hgt : ℝ) / maxSquare hgt wid count ≤
      ((⌈(hgt : ℝ) / maxSquare hgt wid count⌉ : ℤ) : ℝ) := Int.le_ceil _
  have h2 : (wid : ℝ) / maxSquare hgt wid count ≤
      ((⌈(wid : ℝ) / maxSquare hgt wid count⌉ : ℤ) : ℝ) := Int.le_ceil _
  have hmul : (hgt : ℝ) / maxSquare hgt wid count *
      ((wid : ℝ) / maxSquare hgt wid count) ≤
      ((⌈(hgt : ℝ) / maxSquare hgt wid count⌉ : ℤ) : ℝ) *
        ((⌈(wid : ℝ) / maxSquare hgt wid count⌉ : ℤ) : ℝ) :=
    mul_le_mul h1 h2 (by positivity) ((by positivity : (0:ℝ) ≤ (hgt : ℝ) / maxSquare hgt wid count).trans h1)
  have heq : (hgt : ℝ) / maxSquare hgt wid count *
      ((wid : ℝ) / maxSquare hgt wid count) = count := by
    have hgt0 : (0 : ℝ) < hgt := by exact_mod_cast hh
    have hwid0 : (0 : ℝ) < wid := by exact_mod_cast hw
    have hcnt0 : (0 : ℝ) < count := by exact_mod_cast hc
    rw [div_mul_div_comm, ← sq, hsq]
    field_simp
  rw [heq] at hmul
  exact_mod_cast hmul

/-- C2: every tile produced by the layout lies fully within the canvas:
`0 ≤ x`, `0 ≤ y`, `x + size ≤ width` and `y + size ≤ height`, for every
`count ≥ 1`, positive canvas dimensions, and tile index below `count`. -/
theorem computeSquareDimensions_in_bounds (index count hgt wid : ℕ)
    (hc : 0 < count) (hh : 0 < hgt) (hw : 0 < wid) (hi : index < count) :
    0 ≤ (computeSquareDimensions index count hgt wid).x ∧
      0 ≤ (computeSquareDimensions index count hgt wid).y ∧
      (computeSquareDimensions index count hgt wid).x +
        (computeSquareDimensions index count hgt wid).size ≤ (wid : ℤ) ∧
      (computeSquareDimensions index count hgt wid).y +
        (computeSquareDimensions index count hgt wid).size ≤ (hgt : ℤ) := by
  have hs := maxSquare_pos hgt wid count hh hw hc
  have hsize_nonneg : 0 ≤ squareSize hgt wid count :=
    le_min (axisTile_nonneg hgt _ hh hs) (axisTile_nonneg wid _ hw hs)
  rcases eq_or_lt_of_le hsize_nonneg with hzero | hpos
  · -- degenerate case: the per-axis shrink collapsed the tile side to 0
    have hacross : squareAcross hgt wid count = 0 := by
      unfold squareAcross
      rw [← hzero]
      simp
    unfold computeSquareDimensions
    rw [hacross, ← hzero]
    simp
  · -- the regular case: a positive uniform tile side
    have hht : squareSize hgt wid count ≤ tileHeight hgt wid count := min_le_left _ _
    have hwt : squareSize hgt wid count ≤ tileWidth hgt wid count := min_le_right _ _
    have hht_pos : 0 < tileHeight hgt wid count := lt_of_lt_of_le hpos hht
    have hwt_pos : 0 < tileWidth hgt wid count := lt_of_lt_of_le hpos hwt
    have hsr : (0 : ℝ) < ((squareSize hgt wid count : ℤ) : ℝ) := by exact_mod_cast hpos
    -- the ceil counts fit under the realized per-axis tile counts
    have haxis : ∀ len : ℕ, 0 < len →
        ∀ t : ℤ, 0 < t → t ≤ axisTile len (maxSquare hgt wid count) →
        ⌈(len : ℝ) / maxSquare hgt wid count⌉ ≤ ⌊(len : ℝ) / ((t : ℤ) : ℝ)⌋ := by
      intro len hlen t ht htile
      apply Int.le_floor.2
      have htr : (0 : ℝ) < ((t : ℤ) : ℝ) := by exact_mod_cast ht
      have hat : (0 : ℝ) < ((axisTile len (maxSquare hgt wid count) : ℤ) : ℝ) := by
        exact_mod_cast lt_of_lt_of_le ht htile
      have h1 : ((⌈(len : ℝ) / maxSquare hgt wid count⌉ : ℤ) : ℝ) ≤
          (len : ℝ) / ((axisTile len (maxSquare hgt wid count) : ℤ) : ℝ) := by
        rw [le_div_iff₀ hat, mul_comm]
        exact axisTile_mul_le len _ hlen hs
      refine h1.trans ?_
      apply div_le_div_of_nonneg_left (by positivity) htr
      exact_mod_cast htile
    have hdown : ⌈(hgt : ℝ) / maxSquare hgt wid count⌉ ≤
        ⌊(hgt : ℝ) / ((squareSize hgt wid count : ℤ) : ℝ)⌋ :=
      haxis hgt hh _ hpos hht
    have hacross : ⌈(wid : ℝ) / maxSquare hgt wid count⌉ ≤ squareAcross hgt wid count :=
      haxis wid hw _ hpos hwt
    have hacross_pos : 0 < squareAcross hgt wid count :=
      lt_of_lt_of_le (axisTiles_pos wid _ hw hs) hacross
    have hdown_pos : 0 < ⌊(hgt : ℝ) / ((squareSize hgt wid count : ℤ) : ℝ)⌋ :=
      lt_of_lt_of_le (axisTiles_pos hgt _ hh hs) hdown
    have hcap : (count : ℤ) ≤
        ⌊(hgt : ℝ) / ((squareSize hgt wid count : ℤ) : ℝ)⌋ * squareAcross hgt wid count := by
      refine (capacity_ge_count hgt wid count hh hw hc).trans ?_
      exact mul_le_mul hdown hacross (axisTiles_pos wid _ hw hs).le hdown_pos.le
    have hcol_nonneg : 0 ≤ (index : ℤ) % squareAcross hgt wid count :=
      Int.emod_nonneg _ hacross_pos.ne'
    have hcol_lt : (index : ℤ) % squareAcross hgt wid count < squareAcross hgt wid count :=
      Int.emod_lt_of_pos _ hacross_pos
    have hrow_nonneg : 0 ≤ ⌊(index : ℝ) / ((squareAcross hgt wid count : ℤ) : ℝ)⌋ := by
      apply Int.floor_nonneg.2
      apply div_nonneg (by positivity)
      exact_mod_cast hacross_pos.le
    have hrow_lt : ⌊(index : ℝ) / ((squareAcross hgt wid count : ℤ) : ℝ)⌋ <
        ⌊(hgt : ℝ) / ((squareSize hgt wid count : ℤ) : ℝ)⌋ := by
      apply Int.floor_lt.2
      have hidx : ((index : ℤ) : ℝ) <
          ((⌊(hgt : ℝ) / ((squareSize hgt wid count : ℤ) : ℝ)⌋ *
            squareAcross hgt wid count : ℤ) : ℝ) := by
        exact_mod_cast lt_of_lt_of_le (by exact_mod_cast hi) hcap
      rw [div_lt_iff₀ (by exact_mod_cast hacross_pos)]
      push_cast at hidx ⊢
      linarith
    have hfloor_mul : ∀ len : ℕ, ∀ d : ℤ, 0 < d →
        (⌊(len : ℝ) / ((d : ℤ) : ℝ)⌋ : ℤ) * d ≤ (len : ℤ) := by
      intro len d hd
      have hdr : (0 : ℝ) < ((d : ℤ) : ℝ) := by exact_mod_cast hd
      have := Int.floor_le ((len : ℝ) / ((d : ℤ) : ℝ))
      have hle : ((⌊(len : ℝ) / ((d : ℤ) : ℝ)⌋ : ℤ) : ℝ) * ((d : ℤ) : ℝ) ≤ (len : ℝ) := by
        calc ((⌊(len : ℝ) / ((d : ℤ) : ℝ)⌋ : ℤ) : ℝ) * ((d : ℤ) : ℝ)
            ≤ (len : ℝ) / ((d : ℤ) : ℝ) * ((d : ℤ) : ℝ) :=
              mul_le_mul_of_nonneg_right this hdr.le
          _ = len := div_mul_cancel₀ _ hdr.ne'
      exact_mod_cast hle
    unfold computeSquareDimensions
    dsimp only
    refine ⟨mul_nonneg hcol_nonneg hsize_nonneg,
      mul_nonneg hrow_nonneg hsize_nonneg, ?_, ?_⟩
    · have h1 : (index : ℤ) % squareAcross hgt wid count + 1 ≤ squareAcross hgt wid count :=
        Int.add_one_le_iff.2 hcol_lt
      calc (index : ℤ) % squareAcross hgt wid count * squareSize hgt wid count +
            squareSize hgt wid count
          = ((index : ℤ) % squareAcross hgt wid count + 1) * squareSize hgt wid count := by
            ring
        _ ≤ squareAcross hgt wid count * squareSize hgt wid count :=
            mul_le_mul_of_nonneg_right h1 hsize_nonneg
        _ ≤ (wid : ℤ) := by
            unfold squareAcross
            exact hfloor_mul wid _ hpos
    · have h1 : ⌊(index : ℝ) / ((squareAcross hgt wid count : ℤ) : ℝ)⌋ + 1 ≤
          ⌊(hgt : ℝ) / ((squareSize hgt wid count : ℤ) : ℝ)⌋ :=
        Int.add_one_le_iff.2 hrow_lt
      calc ⌊(index : ℝ) / ((squareAcross hgt wid count : ℤ) : ℝ)⌋ *
            squareSize hgt wid count + squareSize hgt wid count
          = (⌊(index : ℝ) / ((squareAcross hgt wid count : ℤ) : ℝ)⌋ + 1) *
            squareSize hgt wid count := by ring
        _ ≤ ⌊(hgt : ℝ) / ((squareSize hgt wid count : ℤ) : ℝ)⌋ *
            squareSize hgt wid count :=
            mul_le_mul_of_nonneg_right h1 hsize_nonneg
        _ ≤ (hgt : ℤ) := hfloor_mul hgt _ hpos

/-- Concrete instance for `computeSquareDimensions_in_bounds`: the last
of five tiles on a 64 × 48 canvas stays inside the canvas. -/
theorem computeSquareDimensions_in_bounds_witness :
    0 < 5 ∧ 0 < 48 ∧ 0 < 64 ∧ 4 < 5 ∧
      (0 ≤ (computeSquareDimensions 4 5 48 64).x ∧
        0 ≤ (computeSquareDimensions 4 5 48 64).y ∧
        (computeSquareDimensions 4 5 48 64).x +
          (computeSquareDimensions 4 5 48 64).size ≤ (64 : ℤ) ∧
        (computeSquareDimensions 4 5 48 64).y +
          (computeSquareDimensions 4 5 48 64).size ≤ (48 : ℤ)) :=
  ⟨by decide, by decide, by decide, by decide,
    computeSquareDimensions_in_bounds 4 5 48 64 (by decide) (by decide)
      (by decide) (by decide)⟩

/-- Lodash `_.min`: the least element of a list, absent for an empty
list. -/
def foldMin : List ℚ → Option ℚ
  | [] => none
  | x :: xs =>
    match foldMin xs with
    | none => some x
    | some m => some (min x m)

/-- Lodash `_.max`: the greatest element of a list, absent for an empty
list. -/
def foldMax : List ℚ → Option ℚ
  | [] => none
  | x :: xs =>
    match foldMax xs with
    | none => some x
    | some m => some (max x m)

/-- The configuration `createProjection` (source lines 156–170) hands to
the d3 Mercator constructor: the bounding-box LineString from `topLeft`
to `bottomRight`, the inset `extent`, and the `clipExtent`.  The fitting
algorithm itself lives in the external d3 library. -/
structure ProjectionConfig where
  topLeft : ℚ × ℚ
  bottomRight : ℚ × ℚ
  extent : (ℚ × ℚ) × (ℚ × ℚ)
  clip : (ℚ × ℚ) × (ℚ × ℚ)
deriving DecidableEq, Repr

/-- The source's `createProjection(context, controlPoints, height, width)`
reduced to the configuration it builds: bounding box corners from the
control points, `extent = [[0.2w, 0.2h], [0.8w, 0.8h]]`, and
`clipExtent = [[0, 0], [w, h]]`. -/
def createProjection (controlPoints : List Point) (hgt wid : ℚ) :
    ProjectionConfig :=
  { topLeft := ((foldMin (controlPoints.map Point.lon)).getD 0,
      (foldMax (controlPoints.map Point.lat)).getD 0)
    bottomRight := ((foldMax (controlPoints.map Point.lon)).getD 0,
      (foldMin (controlPoints.map Point.lat)).getD 0)
    extent := ((wid * (2 / 10), hgt * (2 / 10)), (wid * (8 / 10), hgt * (8 / 10)))
    clip := ((0, 0), (wid, hgt)) }

theorem foldMin_eq_none (l : List ℚ) : foldMin l = none ↔ l = [] := by
  cases l with
  | nil => simp [foldMin]
  | cons x xs =>
    simp only [foldMin]
    cases foldMin xs <;> simp

theorem foldMax_eq_none (l : List ℚ) : foldMax l = none ↔ l = [] := by
  cases l with
  | nil => simp [foldMax]
  | cons x xs =>
    simp only [foldMax]
    cases foldMax xs <;> simp

theorem foldMin_spec (l : List ℚ) (m : ℚ) (h : foldMin l = some m) :
    m ∈ l ∧ ∀ y ∈ l, m ≤ y := by
  induction l generalizing m with
  | nil => exact absurd h (by simp [foldMin])
  | cons x xs ih =>
    rw [foldMin] at h
    cases hxs : foldMin xs with
    | none =>
      rw [hxs] at h
      have hx : m = x := by injection h with h'; exact h'.symm
      have hnil : xs = [] := (foldMin_eq_none xs).1 hxs
      subst hx hnil
      simp
    | some m' =>
      rw [hxs] at h
      have hx : m = min x m' := by injection h with h'; exact h'.symm
      obtain ⟨hmem, hle⟩ := ih m' hxs
      subst hx
      constructor
      · rcases le_total x m' with h' | h'
        · simp [min_eq_left h']
        · rw [min_eq_right h']
          exact List.mem_cons_of_mem x hmem
      · intro y hy
        rcases List.mem_cons.1 hy with h' | h'
        · exact h' ▸ min_le_left x m'
        · exact (min_le_right x m').trans (hle y h')

theorem foldMax_spec (l : List ℚ) (m : ℚ) (h : foldMax l = some m) :
    m ∈ l ∧ ∀ y ∈ l, y ≤ m := by
  induction l generalizing m with
  | nil => exact absurd h (by simp [foldMax])
  | cons x xs ih =>
    rw [foldMax] at h
    cases hxs : foldMax xs with
    | none =>
      rw [hxs] at h
      have hx : m = x := by injection h with h'; exact h'.symm
      have hnil : xs = [] := (foldMax_eq_none xs).1 hxs
      subst hx hnil
      simp
    | some m' =>
      rw [hxs] at h
      have hx : m = max x m' := by injection h with h'; exact h'.symm
      obtain ⟨hmem, hle⟩ := ih m' hxs
      subst hx
      constructor
      · rcases le_total x m' with h' | h'
        · rw [max_eq_right h']
          exact List.mem_cons_of_mem x hmem
        · simp [max_eq_left h']
      · intro y hy
        rcases List.mem_cons.1 hy with h' | h'
        · exact h' ▸ le_max_left x m'
        · exact (hle y h').trans (le_max_right x m')

/-- C7: for a non-empty control-point list, the fitted projection is
configured with the bounding box `topLeft = (min lon, max lat)`,
`bottomRight = (max lon, min lat)` of the control points, the inset
extent `[(0.2w, 0.2h), (0.8w, 0.8h)]`, and a clip extent of
`[(0, 0), (w, h)]`. -/
theorem createProjection_spec (controlPoints : List Point) (hgt wid : ℚ)
    (hne : controlPoints ≠ []) :
    ((createProjection controlPoints hgt wid).topLeft.1 ∈
        controlPoints.map Point.lon ∧
      ∀ p ∈ controlPoints,
        (createProjection controlPoints hgt wid).topLeft.1 ≤ p.lon) ∧
      ((createProjection controlPoints hgt wid).topLeft.2 ∈
          controlPoints.map Point.lat ∧
        ∀ p ∈ controlPoints,
          p.lat ≤ (createProjection controlPoints hgt wid).topLeft.2) ∧
      ((createProjection controlPoints hgt wid).bottomRight.1 ∈
          controlPoints.map Point.lon ∧
        ∀ p ∈ controlPoints,
          p.lon ≤ (createProjection controlPoints hgt wid).bottomRight.1) ∧
      ((createProjection controlPoints hgt wid).bottomRight.2 ∈
          controlPoints.map Point.lat ∧
        ∀ p ∈ controlPoints,
          (createProjection controlPoints hgt wid).bottomRight.2 ≤ p.lat) ∧
      (createProjection controlPoints hgt wid).extent =
        ((2 / 10 * wid, 2 / 10 * hgt), (8 / 10 * wid, 8 / 10 * hgt)) ∧
      (createProjection controlPoints hgt wid).clip = ((0, 0), (wid, hgt)) := by
  have hlon : controlPoints.map Point.lon ≠ [] := by
    simpa using hne
  have hlat : controlPoints.map Point.lat ≠ [] := by
    simpa using hne
  obtain ⟨mlon, hmlon⟩ : ∃ m, foldMin (controlPoints.map Point.lon) = some m := by
    cases hx : foldMin (controlPoints.map Point.lon) with
    | none => exact absurd ((foldMin_eq_none _).1 hx) hlon
    | some m => exact ⟨m, rfl⟩
  obtain ⟨xlon, hxlon⟩ : ∃ m, foldMax (controlPoints.map Point.lon) = some m := by
    cases hx : foldMax (controlPoints.map Point.lon) with
    | none => exact absurd ((foldMax_eq_none _).1 hx) hlon
    | some m => exact ⟨m, rfl⟩
  obtain ⟨mlat, hmlat⟩ : ∃ m, foldMin (controlPoints.map Point.lat) = some m := by
    cases hx : foldMin (controlPoints.map Point.lat) with
    | none => exact absurd ((foldMin_eq_none _).1 hx) hlat
    | some m => exact ⟨m, rfl⟩
  obtain ⟨xlat, hxlat⟩ : ∃ m, foldMax (controlPoints.map Point.lat) = some m := by
    cases hx : foldMax (controlPoints.map Point.lat) with
    | none => exact absurd ((foldMax_eq_none _).1 hx) hlat
    | some m => exact ⟨m, rfl⟩
  obtain ⟨hm1, hm2⟩ := foldMin_spec _ _ hmlon
  obtain ⟨hx1, hx2⟩ := foldMax_spec _ _ hxlon
  obtain ⟨hm1', hm2'⟩ := foldMin_spec _ _ hmlat
  obtain ⟨hx1', hx2'⟩ := foldMax_spec _ _ hxlat
  unfold createProjection
  rw [hmlon, hxlon, hmlat, hxlat]
  dsimp only [Option.getD]
  refine ⟨⟨hm1, ?_⟩, ⟨hx1', ?_⟩, ⟨hx1, ?_⟩, ⟨hm1', ?_⟩, ?_, rfl⟩
  · intro p hp
    exact hm2 p.lon (List.mem_map_of_mem Point.lon hp)
  · intro p hp
    exact hx2' p.lat (List.mem_map_of_mem Point.lat hp)
  · intro p hp
    exact hx2 p.lon (List.mem_map_of_mem Point.lon hp)
  · intro p hp
    exact hm2' p.lat (List.mem_map_of_mem Point.lat hp)
  · have h1 : wid * (2 / 10) = 2 / 10 * wid := by ring
    have h2 : hgt * (2 / 10) = 2 / 10 * hgt := by ring
    have h3 : wid * (8 / 10) = 8 / 10 * wid := by ring
    have h4 : hgt * (8 / 10) = 8 / 10 * hgt := by ring
    rw [h1, h2, h3, h4]

/-- Concrete instance for `createProjection_spec`: two control points on
a 10 × 20 tile. -/
theorem createProjection_spec_witness :
    ([(⟨1, 2⟩ : Point), ⟨3, 4⟩] ≠ ([] : List Point)) ∧
      (((createProjection [(⟨1, 2⟩ : Point), ⟨3, 4⟩] 10 20).topLeft.1 ∈
          [(⟨1, 2⟩ : Point), ⟨3, 4⟩].map Point.lon ∧
        ∀ p ∈ [(⟨1, 2⟩ : Point), ⟨3, 4⟩],
          (createProjection [(⟨1, 2⟩ : Point), ⟨3, 4⟩] 10 20).topLeft.1 ≤ p.lon) ∧
        (((createProjection [(⟨1, 2⟩ : Point), ⟨3, 4⟩] 10 20).topLeft.2 ∈
            [(⟨1, 2⟩ : Point), ⟨3, 4⟩].map Point.lat ∧
          ∀ p ∈ [(⟨1, 2⟩ : Point), ⟨3, 4⟩],
            p.lat ≤ (createProjection [(⟨1, 2⟩ : Point), ⟨3, 4⟩] 10 20).topLeft.2) ∧
          (((createProjection [(⟨1, 2⟩ : Point), ⟨3, 4⟩] 10 20).bottomRight.1 ∈
              [(⟨1, 2⟩ : Point), ⟨3, 4⟩].map Point.lon ∧
            ∀ p ∈ [(⟨1, 2⟩ : Point), ⟨3, 4⟩],
              p.lon ≤ (createProjection [(⟨1, 2⟩ : Point), ⟨3, 4⟩] 10 20).bottomRight.1) ∧
            (((createProjection [(⟨1, 2⟩ : Point), ⟨3, 4⟩] 10 20).bottomRight.2 ∈
                [(⟨1, 2⟩ : Point), ⟨3, 4⟩].map Point.lat ∧
              ∀ p ∈ [(⟨1, 2⟩ : Point), ⟨3, 4⟩],
                (createProjection [(⟨1, 2⟩ : Point), ⟨3, 4⟩] 10 20).bottomRight.2 ≤ p.lat) ∧
              (createProjection [(⟨1, 2⟩ : Point), ⟨3, 4⟩] 10 20).extent =
                ((2 / 10 * 20, 2 / 10 * 10), (8 / 10 * 20, 8 / 10 * 10)) ∧
              (createProjection [(⟨1, 2⟩ : Point), ⟨3, 4⟩] 10 20).clip =
                ((0, 0), (20, 10)))))) := by
  have h := createProjection_spec [(⟨1, 2⟩ : Point), ⟨3, 4⟩] 10 20 (by simp)
  exact ⟨by simp, h.1, h.2.1, h.2.2.1, h.2.2.2.1, h.2.2.2.2.1, h.2.2.2.2.2⟩

end MovesViz
